import Mathlib

/-!
# Black-Scholes option pricing app (`src/main.cpp`)

A shallow embedding of the numeric core of `main.cpp`:
`cumulativeDistributionFunction`, `calculateBlackScholesOption`,
`calculateDeltaNumerically` and the simulation loop of `main`.

## Model of `double`

A C++ `double` is modelled by `Dbl`: a finite value carrying an exact real
number, or one of the IEEE 754 special values `+Inf`, `-Inf`, `NaN`.
Arithmetic between finite values is exact real arithmetic (rounding, overflow
and underflow are not modelled); operations that involve a special value, or
that leave the reals (division by zero, `sqrt`/`log` of a negative number,
`log 0`), follow IEEE 754 / the C math library.  The model has a single zero,
read as `+0`: the sign of a zero result is not tracked.

Since finite results are exact, an equation or an order between two computed
values is a statement about the real numbers they approximate.  The theorems
of the last section are therefore limited to properties that rounding does not
affect: the structure of the loop, the propagation of `NaN` and of a division
by zero (whatever the sign of the zero), values with a stated tolerance, and
comparisons between values that differ by far more than the rounding error.
Where a hypothesis is needed on a computed quantity (`deltaTime`, `dS`), it is
put on the computed value, not on the input it was computed from.

`std::erf` is the error function `erf x = 2/√π · ∫₀ˣ exp (-t²) dt`, defined here
by its Maclaurin series (`erfReal`, `erfReal_eq_integral`).
-/

namespace BlackScholes

/-! ## The error function -/

/-- The error function on the reals, by its Maclaurin series
`erf x = 2/√π · Σₙ (-1)ⁿ x²ⁿ⁺¹ / (n! (2n+1))`; it is `2/√π · ∫₀ˣ exp (-t²) dt`
(`erfReal_eq_integral`). -/
noncomputable def erfReal (x : ℝ) : ℝ :=
  2 / Real.sqrt Real.pi
    * tsum (fun n : ℕ => (-1) ^ n * x ^ (2 * n + 1) / (n.factorial * (2 * n + 1)))

/-! ## The model of `double` -/

/-- A `double`: a finite real value or an IEEE 754 special value. -/
inductive Dbl where
  | nan : Dbl
  | pinf : Dbl
  | ninf : Dbl
  | fin (x : ℝ) : Dbl

namespace Dbl

/-- Unary minus. -/
noncomputable def neg : Dbl → Dbl
  | nan => nan
  | pinf => ninf
  | ninf => pinf
  | fin x => fin (-x)

/-- Addition: `Inf + (-Inf)` is `NaN`. -/
noncomputable def add : Dbl → Dbl → Dbl
  | nan, _ => nan
  | _, nan => nan
  | pinf, ninf => nan
  | ninf, pinf => nan
  | pinf, _ => pinf
  | _, pinf => pinf
  | ninf, _ => ninf
  | _, ninf => ninf
  | fin x, fin y => fin (x + y)

/-- Subtraction, `a - b = a + (-b)`. -/
noncomputable def sub (a b : Dbl) : Dbl := add a (neg b)

/-- Multiplication: `Inf * 0` is `NaN`. -/
noncomputable def mul : Dbl → Dbl → Dbl
  | nan, _ => nan
  | _, nan => nan
  | pinf, pinf => pinf
  | pinf, ninf => ninf
  | ninf, pinf => ninf
  | ninf, ninf => pinf
  | pinf, fin y => if y = 0 then nan else if 0 < y then pinf else ninf
  | ninf, fin y => if y = 0 then nan else if 0 < y then ninf else pinf
  | fin x, pinf => if x = 0 then nan else if 0 < x then pinf else ninf
  | fin x, ninf => if x = 0 then nan else if 0 < x then ninf else pinf
  | fin x, fin y => fin (x * y)

/-- Division: `0/0` and `Inf/Inf` are `NaN`, a nonzero finite value divided by
zero is the infinity of the sign of the numerator (the zero is `+0`), a finite
value divided by an infinity is zero. -/
noncomputable def div : Dbl → Dbl → Dbl
  | nan, _ => nan
  | _, nan => nan
  | pinf, pinf => nan
  | pinf, ninf => nan
  | ninf, pinf => nan
  | ninf, ninf => nan
  | pinf, fin y => if 0 ≤ y then pinf else ninf
  | ninf, fin y => if 0 ≤ y then ninf else pinf
  | fin _, pinf => fin 0
  | fin _, ninf => fin 0
  | fin x, fin y =>
    if y = 0 then (if x = 0 then nan else if 0 < x then pinf else ninf) else fin (x / y)

/-- The function `std::sqrt`: `NaN` below zero. -/
noncomputable def sqrt : Dbl → Dbl
  | nan => nan
  | pinf => pinf
  | ninf => nan
  | fin x => if x < 0 then nan else fin (Real.sqrt x)

/-- The function `std::log`: `NaN` below zero, `-Inf` at zero. -/
noncomputable def log : Dbl → Dbl
  | nan => nan
  | pinf => pinf
  | ninf => nan
  | fin x => if x < 0 then nan else if x = 0 then ninf else fin (Real.log x)

/-- The function `std::exp`. -/
noncomputable def exp : Dbl → Dbl
  | nan => nan
  | pinf => pinf
  | ninf => fin 0
  | fin x => fin (Real.exp x)

/-- The function `std::pow` with an integer literal exponent `n ≥ 0`
(`pow(x, 0)` is `1` for every `x`). -/
noncomputable def pow (x : Dbl) (n : ℕ) : Dbl :=
  if n = 0 then fin 1 else
  match x with
  | nan => nan
  | pinf => pinf
  | ninf => if n % 2 = 0 then pinf else ninf
  | fin x => fin (x ^ n)

/-- The function `std::erf`: `erf (±Inf) = ±1`. -/
noncomputable def erf : Dbl → Dbl
  | nan => nan
  | pinf => fin 1
  | ninf => fin (-1)
  | fin x => fin (erfReal x)

/-- Conversion of an `int` (here a loop counter or step count) to `double`. -/
noncomputable def ofNat (n : ℕ) : Dbl := fin (n : ℝ)

/-- The comparison `a < b` of two doubles (false when either is `NaN`). -/
def lt : Dbl → Dbl → Prop
  | nan, _ => False
  | _, nan => False
  | _, ninf => False
  | pinf, _ => False
  | ninf, _ => True
  | _, pinf => True
  | fin x, fin y => x < y

/-- The comparison `a <= b` of two doubles (false when either is `NaN`). -/
def le : Dbl → Dbl → Prop
  | nan, _ => False
  | _, nan => False
  | ninf, _ => True
  | _, pinf => True
  | _, ninf => False
  | pinf, _ => False
  | fin x, fin y => x ≤ y

noncomputable instance : Neg Dbl := ⟨neg⟩
noncomputable instance : Add Dbl := ⟨add⟩
noncomputable instance : Sub Dbl := ⟨sub⟩
noncomputable instance : Mul Dbl := ⟨mul⟩
noncomputable instance : Div Dbl := ⟨div⟩

end Dbl

open Dbl

/-! ## The program -/

/-- The function `double cumulativeDistributionFunction(double x)`:
`0.5 * (1 + std::erf(x / std::sqrt(2.0)))`. -/
noncomputable def cumulativeDistributionFunction (x : Dbl) : Dbl :=
  fin 0.5 * (fin 1 + Dbl.erf (x / Dbl.sqrt (fin 2.0)))

/-- The local `d1` of `calculateBlackScholesOption`:
`(log(S / K) + (r + 0.5 * pow(sigma, 2)) * T) / (sigma * sqrt(T))`. -/
noncomputable def d1 (S K sigma T r : Dbl) : Dbl :=
  (Dbl.log (S / K) + (r + fin 0.5 * Dbl.pow sigma 2) * T) / (sigma * Dbl.sqrt T)

/-- The local `d2` of `calculateBlackScholesOption`: `d1 - sigma * sqrt(T)`. -/
noncomputable def d2 (S K sigma T r : Dbl) : Dbl :=
  d1 S K sigma T r - sigma * Dbl.sqrt T

/-- The function `double calculateBlackScholesOption(S, K, sigma, T, r, optionType)`:
the call price for `'c'`, the put price for `'p'`, and `0.0` (after an error
message) for every other character. -/
noncomputable def calculateBlackScholesOption
    (S K sigma T r : Dbl) (optionType : Char) : Dbl :=
  if optionType = 'c' then
    S * cumulativeDistributionFunction (d1 S K sigma T r)
      - K * Dbl.exp (-r * T) * cumulativeDistributionFunction (d2 S K sigma T r)
  else if optionType = 'p' then
    K * Dbl.exp (-r * T) * cumulativeDistributionFunction (-d2 S K sigma T r)
      - S * cumulativeDistributionFunction (-d1 S K sigma T r)
  else
    fin 0.0

/-- The function `double calculateDeltaNumerically(S, K, sigma, T, r, optionType, dS)`:
the forward difference `(price(S + dS) - price(S)) / dS`. -/
noncomputable def calculateDeltaNumerically
    (S K sigma T r : Dbl) (optionType : Char) (dS : Dbl) : Dbl :=
  let optionPrice := calculateBlackScholesOption S K sigma T r optionType
  let optionPriceUp := calculateBlackScholesOption (S + dS) K sigma T r optionType
  (optionPriceUp - optionPrice) / dS

/-- One line written by the loop of `main`: `currentTime optionPrice delta`. -/
structure Row where
  currentTime : Dbl
  optionPrice : Dbl
  delta : Dbl

/-- The body of the loop of `main` at counter value `step`. -/
noncomputable def loopBody (stockPrice strikePrice volatility interestRate : Dbl)
    (optionType : Char) (deltaTime dS : Dbl) (step : ℕ) : Row :=
  let currentTime := Dbl.ofNat step * deltaTime
  let optionPrice :=
    calculateBlackScholesOption stockPrice strikePrice volatility currentTime interestRate
      optionType
  let delta :=
    calculateDeltaNumerically stockPrice strikePrice volatility currentTime interestRate
      optionType dS
  ⟨currentTime, optionPrice, delta⟩

/-- The loop `for (int step = 0; step <= numSteps; ++step)` of `main`, entered
with counter value `step`; the result is the list of rows written from there
on. -/
noncomputable def simulationLoop (numSteps : ℕ)
    (stockPrice strikePrice volatility interestRate : Dbl)
    (optionType : Char) (deltaTime dS : Dbl) (step : ℕ) : List Row :=
  if step ≤ numSteps then
    loopBody stockPrice strikePrice volatility interestRate optionType deltaTime dS step ::
      simulationLoop numSteps stockPrice strikePrice volatility interestRate optionType
        deltaTime dS (step + 1)
  else
    []
termination_by numSteps + 1 - step

/-- The simulation of `main` for a step count `numSteps`:
`deltaTime = timeToMaturity / numSteps`, `dS = stockPrice * 0.01`, then the
loop from `step = 0`. -/
noncomputable def simulate (numSteps : ℕ)
    (stockPrice strikePrice volatility timeToMaturity interestRate : Dbl)
    (optionType : Char) : List Row :=
  let deltaTime := timeToMaturity / Dbl.ofNat numSteps
  let dS := stockPrice * fin 0.01
  simulationLoop numSteps stockPrice strikePrice volatility interestRate optionType
    deltaTime dS 0

/-- The constant `const int numSteps = 100` of `main`. -/
def numSteps : ℕ := 100

/-- The rows written by `main` for the six values read from the input. -/
noncomputable def main
    (stockPrice strikePrice volatility timeToMaturity interestRate : Dbl)
    (optionType : Char) : List Row :=
  simulate numSteps stockPrice strikePrice volatility timeToMaturity interestRate optionType

/-! ## Auxiliary definitions used in the statements and proofs -/

/-- The value of `cumulativeDistributionFunction` at a finite argument, as a real
function: `1/2 · (1 + erf (x / √2))`. -/
noncomputable def Phi (x : ℝ) : ℝ := 1 / 2 * (1 + erfReal (x / Real.sqrt 2))

/-- The value of `d1` on finite arguments with a nonzero denominator. -/
noncomputable def d1Real (S K sigma T r : ℝ) : ℝ :=
  (Real.log (S / K) + (r + 1 / 2 * sigma ^ 2) * T) / (sigma * Real.sqrt T)

/-- The value of the `'c'` branch on finite arguments with a nonzero denominator. -/
noncomputable def callReal (S K sigma T r : ℝ) : ℝ :=
  S * Phi (d1Real S K sigma T r)
    - K * Real.exp (-r * T) * Phi (d1Real S K sigma T r - sigma * Real.sqrt T)

/-! ## Evaluation of the `double` operations -/

theorem Dbl.fin_div_fin (x : ℝ) {y : ℝ} (hy : y ≠ 0) : fin x / fin y = fin (x / y) :=
  if_neg hy

theorem Dbl.sqrt_fin {x : ℝ} (hx : 0 ≤ x) : Dbl.sqrt (fin x) = fin (Real.sqrt x) :=
  if_neg (not_lt.mpr hx)

theorem Dbl.log_fin {x : ℝ} (hx : 0 < x) : Dbl.log (fin x) = fin (Real.log x) :=
  (if_neg (not_lt.mpr hx.le)).trans (if_neg hx.ne')

/-- Whatever the numerator, a division by zero does not give a finite value. -/
theorem Dbl.div_zero_ne_fin (x : Dbl) (v : ℝ) : x / fin 0 ≠ fin v := by
  have h0 : (0:ℝ) ≤ 0 := le_rfl
  cases x with
  | nan => exact fun h => Dbl.noConfusion h
  | pinf =>
    have e : (pinf : Dbl) / fin 0 = pinf := if_pos h0
    rw [e]
    exact fun h => Dbl.noConfusion h
  | ninf =>
    have e : (ninf : Dbl) / fin 0 = ninf := if_pos h0
    rw [e]
    exact fun h => Dbl.noConfusion h
  | fin a =>
    have e : fin a / fin 0 = if a = 0 then nan else if 0 < a then pinf else ninf :=
      if_pos rfl
    rw [e]
    split_ifs <;> exact fun h => Dbl.noConfusion h

/-! ## The error function and the normal distribution function -/

/-- The derivative of the error function, by termwise differentiation. -/
theorem hasDerivAt_erfReal (x : ℝ) :
    HasDerivAt erfReal (2 / Real.sqrt Real.pi * Real.exp (-(x ^ 2))) x := by
  have hR : (0:ℝ) < |x| + 1 := by positivity
  have hu : Summable (fun n : ℕ => ((|x| + 1) ^ 2) ^ n / (n.factorial : ℝ)) :=
    Real.summable_pow_div_factorial _
  have hg : ∀ (n : ℕ) (y : ℝ), y ∈ Metric.ball (0:ℝ) (|x| + 1) →
      HasDerivAt (fun z : ℝ => (-1) ^ n * z ^ (2 * n + 1) / ((n.factorial : ℝ) * (2 * n + 1)))
        ((-1) ^ n * y ^ (2 * n) / (n.factorial : ℝ)) y := by
    intro n y _
    have h := ((hasDerivAt_pow (2 * n + 1) y).const_mul ((-1 : ℝ) ^ n)).div_const
      ((n.factorial : ℝ) * (2 * n + 1))
    refine h.congr_deriv ?_
    have h1 : ((n.factorial : ℝ)) ≠ 0 := by positivity
    have h2 : ((2:ℝ) * n + 1) ≠ 0 := by positivity
    simp only [Nat.add_sub_cancel]
    field_simp
    ring
  have hg' : ∀ (n : ℕ) (y : ℝ), y ∈ Metric.ball (0:ℝ) (|x| + 1) →
      ‖(-1) ^ n * y ^ (2 * n) / (n.factorial : ℝ)‖ ≤ ((|x| + 1) ^ 2) ^ n / (n.factorial : ℝ) := by
    intro n y hy
    have hy' : |y| < |x| + 1 := by simpa [Metric.mem_ball, Real.dist_eq] using hy
    rw [Real.norm_eq_abs, abs_div, abs_mul, abs_pow, abs_pow, abs_neg, abs_one, one_pow,
      one_mul, Nat.abs_cast, ← pow_mul]
    have : |y| ^ (2 * n) ≤ (|x| + 1) ^ (2 * n) :=
      pow_le_pow_left₀ (abs_nonneg y) hy'.le _
    exact div_le_div_of_nonneg_right this (by positivity)
  have hg0 : Summable
      (fun n : ℕ => (-1) ^ n * (0:ℝ) ^ (2 * n + 1) / ((n.factorial : ℝ) * (2 * n + 1))) := by
    simp
    exact summable_zero
  have hx : x ∈ Metric.ball (0:ℝ) (|x| + 1) := by
    simp [Metric.mem_ball, Real.dist_eq]
  have hsum : HasDerivAt
      (fun z : ℝ =>
        tsum (fun n : ℕ => (-1) ^ n * z ^ (2 * n + 1) / ((n.factorial : ℝ) * (2 * n + 1))))
      (tsum (fun n : ℕ => (-1) ^ n * x ^ (2 * n) / (n.factorial : ℝ))) x :=
    hasDerivAt_tsum_of_isPreconnected hu Metric.isOpen_ball
      (convex_ball (0:ℝ) (|x| + 1)).isPreconnected hg hg' (Metric.mem_ball_self hR) hg0 hx
  have hexp : tsum (fun n : ℕ => (-1) ^ n * x ^ (2 * n) / (n.factorial : ℝ))
      = Real.exp (-(x ^ 2)) := by
    rw [Real.exp_eq_exp_ℝ, NormedSpace.exp_eq_tsum_div]
    refine tsum_congr fun n => ?_
    have : (-(x ^ 2)) ^ n = (-1) ^ n * x ^ (2 * n) := by rw [neg_pow, pow_mul]
    rw [this]
  rw [hexp] at hsum
  exact hsum.const_mul (2 / Real.sqrt Real.pi)

/-- The error function is odd. -/
theorem erfReal_neg (x : ℝ) : erfReal (-x) = -erfReal x := by
  unfold erfReal
  rw [← mul_neg, ← tsum_neg]
  congr 2
  funext n
  rw [Odd.neg_pow ⟨n, rfl⟩]
  ring

/-- The series `erfReal` is the error function `2/√π · ∫₀ˣ exp (-t²) dt`. -/
theorem erfReal_eq_integral (x : ℝ) :
    erfReal x = 2 / Real.sqrt Real.pi * ∫ t in (0:ℝ)..x, Real.exp (-(t ^ 2)) := by
  have hc : Continuous (fun t : ℝ => Real.exp (-(t ^ 2))) := by fun_prop
  have hd : ∀ y : ℝ, HasDerivAt
      (fun y : ℝ => erfReal y - 2 / Real.sqrt Real.pi * ∫ t in (0:ℝ)..y, Real.exp (-(t ^ 2)))
      0 y := by
    intro y
    have h1 := ((hc.integral_hasStrictDerivAt 0 y).hasDerivAt).const_mul
      (2 / Real.sqrt Real.pi)
    have h2 := (hasDerivAt_erfReal y).sub h1
    simpa using h2
  have hconst := is_const_of_deriv_eq_zero (fun y => (hd y).differentiableAt)
    (fun y => (hd y).deriv) x 0
  have h0 : erfReal 0 = 0 := by
    have := erfReal_neg 0
    rw [neg_zero] at this
    linarith
  simp only [intervalIntegral.integral_same, mul_zero, sub_zero, h0] at hconst
  linarith

theorem Phi_neg (x : ℝ) : Phi (-x) = 1 - Phi x := by
  unfold Phi
  rw [neg_div, erfReal_neg]
  ring

theorem cdf_eval :
    (∀ x : ℝ, cumulativeDistributionFunction (fin x) = fin (Phi x))
    ∧ cumulativeDistributionFunction nan = nan
    ∧ cumulativeDistributionFunction pinf = fin 1
    ∧ cumulativeDistributionFunction ninf = fin 0 := by
  have h2 : Dbl.sqrt (fin 2.0) = fin (Real.sqrt 2) := by
    rw [Dbl.sqrt_fin (by norm_num)]; norm_num
  have hs : (0:ℝ) ≤ Real.sqrt 2 := Real.sqrt_nonneg 2
  have hp : (pinf : Dbl) / fin (Real.sqrt 2) = pinf := if_pos hs
  have hn : (ninf : Dbl) / fin (Real.sqrt 2) = ninf := if_pos hs
  refine ⟨fun x => ?_, ?_, ?_, ?_⟩
  · unfold cumulativeDistributionFunction Phi
    rw [h2, Dbl.fin_div_fin x (by positivity)]
    show fin (0.5 * (1 + erfReal (x / Real.sqrt 2))) = _
    norm_num
  · unfold cumulativeDistributionFunction
    rw [h2]
    rfl
  · unfold cumulativeDistributionFunction
    rw [h2, hp]
    show fin (0.5 * (1 + 1)) = _
    norm_num
  · unfold cumulativeDistributionFunction
    rw [h2, hn]
    show fin (0.5 * (1 + -1)) = _
    norm_num

/-! ## The pricer on finite arguments with `sigma > 0` and `T > 0` -/

theorem price_fin {S K sigma T : ℝ} (r : ℝ) (hS : 0 < S) (hK : 0 < K) (hsigma : 0 < sigma)
    (hT : 0 < T) :
    d1 (fin S) (fin K) (fin sigma) (fin T) (fin r) = fin (d1Real S K sigma T r)
    ∧ calculateBlackScholesOption (fin S) (fin K) (fin sigma) (fin T) (fin r) 'c'
        = fin (callReal S K sigma T r)
    ∧ calculateBlackScholesOption (fin S) (fin K) (fin sigma) (fin T) (fin r) 'p'
        = fin (callReal S K sigma T r - S + K * Real.exp (-r * T)) := by
  have hden : sigma * Real.sqrt T ≠ 0 := by positivity
  have hd1 : d1 (fin S) (fin K) (fin sigma) (fin T) (fin r) = fin (d1Real S K sigma T r) := by
    unfold d1 d1Real
    rw [Dbl.fin_div_fin S hK.ne', Dbl.log_fin (div_pos hS hK), Dbl.sqrt_fin hT.le]
    show fin (Real.log (S / K) + (r + 0.5 * sigma ^ 2) * T) / fin (sigma * Real.sqrt T) = _
    rw [Dbl.fin_div_fin _ hden]
    norm_num
  have hd2 : d2 (fin S) (fin K) (fin sigma) (fin T) (fin r)
      = fin (d1Real S K sigma T r - sigma * Real.sqrt T) := by
    unfold d2
    rw [hd1, Dbl.sqrt_fin hT.le]
    show fin (_ + -_) = _
    rw [← sub_eq_add_neg]
  refine ⟨hd1, ?_, ?_⟩
  · unfold calculateBlackScholesOption
    rw [if_pos rfl, hd1, hd2, cdf_eval.1, cdf_eval.1]
    show fin (_ + -_) = fin _
    unfold callReal
    rw [← sub_eq_add_neg]
  · unfold calculateBlackScholesOption
    rw [if_neg (by decide), if_pos rfl, hd1, hd2]
    show fin K * Dbl.exp (-fin r * fin T)
          * cumulativeDistributionFunction (fin (-(d1Real S K sigma T r - sigma * Real.sqrt T)))
        - fin S * cumulativeDistributionFunction (fin (-d1Real S K sigma T r)) = _
    rw [cdf_eval.1, cdf_eval.1, Phi_neg, Phi_neg]
    show fin (_ + -_) = fin _
    unfold callReal
    congr 1
    ring

theorem delta_fin {S K sigma T dS : ℝ} (r : ℝ) (hS : 0 < S) (hK : 0 < K)
    (hsigma : 0 < sigma) (hT : 0 < T) (hdS : 0 < dS) :
    calculateDeltaNumerically (fin S) (fin K) (fin sigma) (fin T) (fin r) 'c' (fin dS)
        = fin ((callReal (S + dS) K sigma T r - callReal S K sigma T r) / dS)
    ∧ calculateDeltaNumerically (fin S) (fin K) (fin sigma) (fin T) (fin r) 'p' (fin dS)
        = fin ((callReal (S + dS) K sigma T r - callReal S K sigma T r) / dS - 1) := by
  have hS' : 0 < S + dS := by linarith
  have e : fin S + fin dS = fin (S + dS) := rfl
  constructor
  · unfold calculateDeltaNumerically
    rw [e, (price_fin r hS hK hsigma hT).2.1, (price_fin r hS' hK hsigma hT).2.1]
    show fin (_ + -_) / fin dS = _
    rw [Dbl.fin_div_fin _ hdS.ne', ← sub_eq_add_neg]
  · unfold calculateDeltaNumerically
    rw [e, (price_fin r hS hK hsigma hT).2.2, (price_fin r hS' hK hsigma hT).2.2]
    show fin (_ + -_) / fin dS = _
    rw [Dbl.fin_div_fin _ hdS.ne']
    congr 1
    field_simp
    ring

/-! ## The simulation loop -/

theorem simulate_eq_map (numSteps : ℕ) (S K sigma T r : Dbl) (ty : Char) :
    simulate numSteps S K sigma T r ty
      = (List.range (numSteps + 1)).map
          (loopBody S K sigma r ty (T / Dbl.ofNat numSteps) (S * fin 0.01)) := by
  have hloop : ∀ (n step : ℕ), step + n = numSteps + 1 →
      simulationLoop numSteps S K sigma r ty (T / Dbl.ofNat numSteps) (S * fin 0.01) step
        = (List.range' step n).map
            (loopBody S K sigma r ty (T / Dbl.ofNat numSteps) (S * fin 0.01)) := by
    intro n
    induction n with
    | zero =>
      intro step h
      rw [simulationLoop, if_neg (by omega)]
      rfl
    | succ n ih =>
      intro step h
      rw [simulationLoop, if_pos (by omega), ih (step + 1) (by omega)]
      rfl
  unfold simulate
  rw [hloop (numSteps + 1) 0 (by omega), List.range_eq_range']

theorem simulate_getElem? (numSteps i : ℕ) (hi : i ≤ numSteps) (S K sigma T r : Dbl)
    (ty : Char) :
    (simulate numSteps S K sigma T r ty)[i]?
      = some (loopBody S K sigma r ty (T / Dbl.ofNat numSteps) (S * fin 0.01) i) := by
  rw [simulate_eq_map, List.getElem?_map, List.getElem?_range (by omega)]
  rfl

theorem step_time {numSteps : ℕ} (hN : 0 < numSteps) (i : ℕ) (T : ℝ) :
    Dbl.ofNat i * (fin T / Dbl.ofNat numSteps) = fin ((i : ℝ) * (T / (numSteps : ℝ))) := by
  unfold Dbl.ofNat
  rw [Dbl.fin_div_fin T (by positivity)]
  rfl

theorem main_first_row (S K sigma r : Dbl) (T : ℝ) (ty : Char) :
    (main S K sigma (fin T) r ty)[0]? = some
      { currentTime := fin 0
        optionPrice := calculateBlackScholesOption S K sigma (fin 0) r ty
        delta := calculateDeltaNumerically S K sigma (fin 0) r ty (S * fin 0.01) } := by
  unfold main
  rw [simulate_getElem? numSteps 0 (Nat.zero_le _)]
  have ht : Dbl.ofNat 0 * (fin T / Dbl.ofNat numSteps) = fin 0 := by
    rw [step_time (by decide)]
    congr 1
    simp
  unfold loopBody
  rw [ht]

/-! ## Time to maturity zero -/

theorem zero_denominator (sigma : ℝ) : fin sigma * Dbl.sqrt (fin 0) = fin 0 := by
  rw [Dbl.sqrt_fin le_rfl, Real.sqrt_zero]
  show fin (sigma * 0) = _
  rw [mul_zero]

theorem price_at_zero {S K : ℝ} (sigma r : ℝ) (hS : 0 < S) (hK : 0 < K) :
    (S = K → ∀ ty : Char, ty = 'c' ∨ ty = 'p' →
      calculateBlackScholesOption (fin S) (fin K) (fin sigma) (fin 0) (fin r) ty = nan)
    ∧ (K < S →
        calculateBlackScholesOption (fin S) (fin K) (fin sigma) (fin 0) (fin r) 'c'
          = fin (S - K)
        ∧ calculateBlackScholesOption (fin S) (fin K) (fin sigma) (fin 0) (fin r) 'p'
          = fin 0)
    ∧ (S < K →
        calculateBlackScholesOption (fin S) (fin K) (fin sigma) (fin 0) (fin r) 'c'
          = fin 0
        ∧ calculateBlackScholesOption (fin S) (fin K) (fin sigma) (fin 0) (fin r) 'p'
          = fin (K - S)) := by
  have hden := zero_denominator sigma
  have hd1 : d1 (fin S) (fin K) (fin sigma) (fin 0) (fin r)
      = fin (Real.log (S / K)) / fin 0 := by
    unfold d1
    rw [hden, Dbl.fin_div_fin S hK.ne', Dbl.log_fin (div_pos hS hK)]
    show fin (Real.log (S / K) + (r + 0.5 * sigma ^ 2) * 0) / fin 0 = _
    rw [mul_zero, add_zero]
  have hexp : Dbl.exp (-fin r * fin 0) = fin 1 := by
    show fin (Real.exp (-r * 0)) = _
    rw [mul_zero, Real.exp_zero]
  have hnan : ∀ y : Dbl, (nan : Dbl) * y = nan ∧ y * (nan : Dbl) = nan
      ∧ (nan : Dbl) - y = nan ∧ y - (nan : Dbl) = nan := by
    intro y
    cases y <;> exact ⟨rfl, rfl, rfl, rfl⟩
  refine ⟨?_, ?_, ?_⟩
  · intro h ty hty
    have hd : d1 (fin S) (fin K) (fin sigma) (fin 0) (fin r) = nan := by
      rw [hd1, h, div_self hK.ne', Real.log_one]
      exact (if_pos rfl).trans (if_pos rfl)
    unfold calculateBlackScholesOption d2
    rw [hd, (hnan _).2.2.1]
    show (if ty = 'c' then _ else if ty = 'p' then _ else _) = _
    rcases hty with rfl | rfl
    · rw [if_pos rfl, cdf_eval.2.1, (hnan _).2.1, (hnan _).2.1, (hnan _).2.2.1]
    · rw [if_neg (by decide), if_pos rfl]
      show _ * cumulativeDistributionFunction nan - _ * cumulativeDistributionFunction nan = _
      rw [cdf_eval.2.1, (hnan _).2.1, (hnan _).2.1, (hnan _).2.2.1]
  · intro h
    have hl : 0 < Real.log (S / K) := Real.log_pos ((one_lt_div hK).mpr h)
    have hd : d1 (fin S) (fin K) (fin sigma) (fin 0) (fin r) = pinf := by
      rw [hd1]
      exact (if_pos rfl).trans ((if_neg hl.ne').trans (if_pos hl))
    constructor
    · unfold calculateBlackScholesOption d2
      rw [if_pos rfl, hd, hden, hexp]
      show fin S * cumulativeDistributionFunction pinf
        - fin K * fin 1 * cumulativeDistributionFunction pinf = _
      rw [cdf_eval.2.2.1]
      show fin (_ + -_) = fin _
      congr 1
      ring
    · unfold calculateBlackScholesOption d2
      rw [if_neg (by decide), if_pos rfl, hd, hden, hexp]
      show fin K * fin 1 * cumulativeDistributionFunction ninf
        - fin S * cumulativeDistributionFunction ninf = _
      rw [cdf_eval.2.2.2]
      show fin (_ + -_) = fin _
      congr 1
      ring
  · intro h
    have hl : Real.log (S / K) < 0 := Real.log_neg (div_pos hS hK) ((div_lt_one hK).mpr h)
    have hd : d1 (fin S) (fin K) (fin sigma) (fin 0) (fin r) = ninf := by
      rw [hd1]
      exact (if_pos rfl).trans ((if_neg hl.ne).trans (if_neg (not_lt.mpr hl.le)))
    constructor
    · unfold calculateBlackScholesOption d2
      rw [if_pos rfl, hd, hden, hexp]
      show fin S * cumulativeDistributionFunction ninf
        - fin K * fin 1 * cumulativeDistributionFunction ninf = _
      rw [cdf_eval.2.2.2]
      show fin (_ + -_) = fin _
      congr 1
      ring
    · unfold calculateBlackScholesOption d2
      rw [if_neg (by decide), if_pos rfl, hd, hden, hexp]
      show fin K * fin 1 * cumulativeDistributionFunction pinf
        - fin S * cumulativeDistributionFunction pinf = _
      rw [cdf_eval.2.2.1]
      show fin (_ + -_) = fin _
      congr 1
      ring

/-! ## Calculus: the call price is convex in the spot price -/

/-- The derivative of `Phi` is the normal density; `Phi` is strictly increasing. -/
theorem Phi_calculus :
    (∀ x : ℝ, HasDerivAt Phi
      (1 / (Real.sqrt Real.pi * Real.sqrt 2) * Real.exp (-(x ^ 2 / 2))) x)
    ∧ StrictMono Phi := by
  have hd : ∀ x : ℝ, HasDerivAt Phi
      (1 / (Real.sqrt Real.pi * Real.sqrt 2) * Real.exp (-(x ^ 2 / 2))) x := by
    intro x
    have he := hasDerivAt_erfReal (x / Real.sqrt 2)
    have h1 : HasDerivAt (fun y : ℝ => y / Real.sqrt 2) (1 / Real.sqrt 2) x := by
      simpa using (hasDerivAt_id x).div_const (Real.sqrt 2)
    have h3 := ((he.comp x h1).const_add 1).const_mul (1 / 2 : ℝ)
    refine h3.congr_deriv ?_
    rw [div_pow, Real.sq_sqrt (by norm_num : (0:ℝ) ≤ 2)]
    have hpi : Real.sqrt Real.pi ≠ 0 := by have := Real.pi_pos; positivity
    have h2 : Real.sqrt 2 ≠ 0 := by positivity
    field_simp
  refine ⟨hd, strictMono_of_deriv_pos fun x => ?_⟩
  rw [(hd x).deriv]
  have := Real.pi_pos
  positivity

/-- The derivative of the call price in the spot price is `Phi d1`, by the
identity `S·φ(d1) = K·e^(-rT)·φ(d2)`. -/
theorem hasDerivAt_callReal {S K sigma T : ℝ} (r : ℝ) (hS : 0 < S) (hK : 0 < K)
    (hsigma : 0 < sigma) (hT : 0 < T) :
    HasDerivAt (fun s : ℝ => callReal s K sigma T r) (Phi (d1Real S K sigma T r)) S := by
  have hB : d1Real S K sigma T r * (sigma * Real.sqrt T)
      = Real.log (S / K) + (r + 1 / 2 * sigma ^ 2) * T := by
    unfold d1Real
    exact div_mul_cancel₀ _ (by positivity)
  have hB2 : (sigma * Real.sqrt T) ^ 2 = sigma ^ 2 * T := by
    rw [mul_pow, Real.sq_sqrt hT.le]
  have e : -((d1Real S K sigma T r - sigma * Real.sqrt T) ^ 2 / 2)
      = -(d1Real S K sigma T r ^ 2 / 2) + (Real.log (S / K) + r * T) := by
    linear_combination hB - (1 / 2) * hB2
  have hid : S * (1 / (Real.sqrt Real.pi * Real.sqrt 2)
        * Real.exp (-(d1Real S K sigma T r ^ 2 / 2)))
      = K * Real.exp (-r * T) * (1 / (Real.sqrt Real.pi * Real.sqrt 2)
        * Real.exp (-((d1Real S K sigma T r - sigma * Real.sqrt T) ^ 2 / 2))) := by
    rw [e, Real.exp_add, Real.exp_add, Real.exp_log (div_pos hS hK)]
    have hexp : Real.exp (-r * T) * Real.exp (r * T) = 1 := by
      rw [← Real.exp_add]; simp
    generalize Real.exp (-(d1Real S K sigma T r ^ 2 / 2)) = E
    generalize 1 / (Real.sqrt Real.pi * Real.sqrt 2) = c
    generalize Real.exp (-r * T) = X at hexp ⊢
    generalize Real.exp (r * T) = Y at hexp ⊢
    have hSK : K * (S / K) = S := mul_div_cancel₀ S hK.ne'
    linear_combination (-(S * c * E)) * hexp - (X * c * E * Y) * hSK
  have h1 : HasDerivAt (fun s : ℝ => s / K) (1 / K) S := by
    simpa using (hasDerivAt_id S).div_const K
  have h2 : HasDerivAt (fun s : ℝ => Real.log (s / K)) ((S / K)⁻¹ * (1 / K)) S :=
    (Real.hasDerivAt_log (div_pos hS hK).ne').comp S h1
  have hd : HasDerivAt (fun s : ℝ => d1Real s K sigma T r)
      ((S / K)⁻¹ * (1 / K) / (sigma * Real.sqrt T)) S :=
    (h2.add_const ((r + 1 / 2 * sigma ^ 2) * T)).div_const (sigma * Real.sqrt T)
  have hP1 : HasDerivAt (fun s : ℝ => Phi (d1Real s K sigma T r)) _ S :=
    (Phi_calculus.1 (d1Real S K sigma T r)).comp S hd
  have hP2 : HasDerivAt (fun s : ℝ => Phi (d1Real s K sigma T r - sigma * Real.sqrt T)) _ S :=
    (Phi_calculus.1 (d1Real S K sigma T r - sigma * Real.sqrt T)).comp S
      (hd.sub_const (sigma * Real.sqrt T))
  have h := ((hasDerivAt_id S).mul hP1).sub (hP2.const_mul (K * Real.exp (-r * T)))
  refine h.congr_deriv ?_
  simp only [id]
  linear_combination ((S / K)⁻¹ * (1 / K) / (sigma * Real.sqrt T)) * hid

/-- The forward difference of the call price, divided by the step, is strictly
increasing in the spot price. -/
theorem forward_difference_lt {K sigma T dS : ℝ} (r : ℝ) (hK : 0 < K) (hsigma : 0 < sigma)
    (hT : 0 < T) (hdS : 0 < dS) {S1 S2 : ℝ} (h1 : 0 < S1) (h12 : S1 < S2) :
    (callReal (S1 + dS) K sigma T r - callReal S1 K sigma T r) / dS
      < (callReal (S2 + dS) K sigma T r - callReal S2 K sigma T r) / dS := by
  have hderiv : ∀ s : ℝ, 0 < s →
      HasDerivAt (fun s : ℝ => callReal (s + dS) K sigma T r - callReal s K sigma T r)
        (Phi (d1Real (s + dS) K sigma T r) - Phi (d1Real s K sigma T r)) s := by
    intro s hs
    have h1 : HasDerivAt (fun s : ℝ => callReal (s + dS) K sigma T r)
        (Phi (d1Real (s + dS) K sigma T r)) s :=
      HasDerivAt.comp_add_const s dS
        (hasDerivAt_callReal r (by linarith : 0 < s + dS) hK hsigma hT)
    exact h1.sub (hasDerivAt_callReal r hs hK hsigma hT)
  have hd1 : ∀ s : ℝ, 0 < s → d1Real s K sigma T r < d1Real (s + dS) K sigma T r := by
    intro s hs
    unfold d1Real
    have hlog : Real.log (s / K) < Real.log ((s + dS) / K) :=
      Real.log_lt_log (div_pos hs hK) (div_lt_div_of_pos_right (by linarith) hK)
    have hB : 0 < sigma * Real.sqrt T := by positivity
    exact div_lt_div_of_pos_right (by linarith) hB
  have hmono : StrictMonoOn
      (fun s : ℝ => callReal (s + dS) K sigma T r - callReal s K sigma T r) (Set.Ioi 0) := by
    apply strictMonoOn_of_deriv_pos (convex_Ioi 0)
    · intro x hx
      exact (hderiv x hx).continuousAt.continuousWithinAt
    · intro x hx
      rw [interior_Ioi] at hx
      rw [(hderiv x hx).deriv, sub_pos]
      exact Phi_calculus.2 (hd1 x hx)
  exact div_lt_div_of_pos_right
    (hmono (Set.mem_Ioi.mpr h1) (Set.mem_Ioi.mpr (h1.trans h12)) h12) hdS

/-! ## Numerical bounds -/

theorem exp_neg_bound {u : ℝ} (h0 : 0 ≤ u) (h1 : u ≤ 1) :
    |Real.exp (-u) - (1 - u + u ^ 2 / 2 - u ^ 3 / 6)| ≤ 5 / 96 * u ^ 4 := by
  have h := Real.exp_bound (x := -u) (by rw [abs_neg, abs_of_nonneg h0]; exact h1)
    (n := 4) (by norm_num)
  simp only [Finset.sum_range_succ, Finset.sum_range_zero, Nat.factorial, abs_neg,
    abs_of_nonneg h0] at h
  norm_num at h
  have e : 1 - u + u ^ 2 / 2 - u ^ 3 / 6 = 1 + -u + u ^ 2 / 2 + (-u) ^ 3 / 6 := by ring
  rw [e, mul_comm]
  exact h

/-- The Taylor polynomial of degree 7 of `√π/2 · erf` on `[0, 1]`. -/
theorem erfReal_bound {a : ℝ} (h0 : 0 ≤ a) (h1 : a ≤ 1) :
    |Real.sqrt Real.pi / 2 * erfReal a - (a - a ^ 3 / 3 + a ^ 5 / 10 - a ^ 7 / 42)|
      ≤ 5 / 864 * a ^ 9 := by
  have hpi : Real.sqrt Real.pi ≠ 0 := by have := Real.pi_pos; positivity
  have hpt : ∀ t : ℝ, 0 ≤ t → t ≤ 1 →
      |Real.exp (-(t ^ 2)) - (1 - t ^ 2 + t ^ 4 / 2 - t ^ 6 / 6)| ≤ 5 / 96 * t ^ 8 := by
    intro t ht0 ht1
    have h := exp_neg_bound (u := t ^ 2) (by positivity) (by nlinarith)
    have e : 1 - t ^ 2 + (t ^ 2) ^ 2 / 2 - (t ^ 2) ^ 3 / 6
        = 1 - t ^ 2 + t ^ 4 / 2 - t ^ 6 / 6 := by ring
    have e2 : (t ^ 2) ^ 4 = t ^ 8 := by ring
    rwa [e, e2] at h
  have hI : ∀ t : ℝ, HasDerivAt (fun t : ℝ => Real.sqrt Real.pi / 2 * erfReal t)
      (Real.exp (-(t ^ 2))) t := by
    intro t
    refine ((hasDerivAt_erfReal t).const_mul (Real.sqrt Real.pi / 2)).congr_deriv ?_
    field_simp
    ring
  have hP : ∀ (c t : ℝ),
      HasDerivAt (fun t : ℝ => t - t ^ 3 / 3 + t ^ 5 / 10 - t ^ 7 / 42 + c * t ^ 9)
        (1 - t ^ 2 + t ^ 4 / 2 - t ^ 6 / 6 + 9 * c * t ^ 8) t := by
    intro c t
    have h := ((((hasDerivAt_id t).sub ((hasDerivAt_pow 3 t).div_const 3)).add
      ((hasDerivAt_pow 5 t).div_const 10)).sub ((hasDerivAt_pow 7 t).div_const 42)).add
      ((hasDerivAt_pow 9 t).const_mul c)
    refine h.congr_deriv ?_
    norm_num
    ring
  have hL : ∀ t : ℝ, HasDerivAt
      (fun t : ℝ => Real.sqrt Real.pi / 2 * erfReal t
        - (t - t ^ 3 / 3 + t ^ 5 / 10 - t ^ 7 / 42 + (-(5 / 864)) * t ^ 9))
      (Real.exp (-(t ^ 2))
        - (1 - t ^ 2 + t ^ 4 / 2 - t ^ 6 / 6 + 9 * (-(5 / 864)) * t ^ 8)) t :=
    fun t => (hI t).sub (hP _ t)
  have hU : ∀ t : ℝ, HasDerivAt
      (fun t : ℝ => (t - t ^ 3 / 3 + t ^ 5 / 10 - t ^ 7 / 42 + 5 / 864 * t ^ 9)
        - Real.sqrt Real.pi / 2 * erfReal t)
      ((1 - t ^ 2 + t ^ 4 / 2 - t ^ 6 / 6 + 9 * (5 / 864) * t ^ 8)
        - Real.exp (-(t ^ 2))) t :=
    fun t => (hP _ t).sub (hI t)
  have hmL : MonotoneOn
      (fun t : ℝ => Real.sqrt Real.pi / 2 * erfReal t
        - (t - t ^ 3 / 3 + t ^ 5 / 10 - t ^ 7 / 42 + (-(5 / 864)) * t ^ 9))
      (Set.Icc 0 1) := by
    apply monotoneOn_of_deriv_nonneg (convex_Icc 0 1)
    · exact fun t _ => (hL t).continuousAt.continuousWithinAt
    · exact fun t _ => (hL t).differentiableAt.differentiableWithinAt
    · intro t ht
      rw [interior_Icc] at ht
      rw [(hL t).deriv]
      have := abs_le.mp (hpt t ht.1.le ht.2.le)
      linarith [this.1]
  have hmU : MonotoneOn
      (fun t : ℝ => (t - t ^ 3 / 3 + t ^ 5 / 10 - t ^ 7 / 42 + 5 / 864 * t ^ 9)
        - Real.sqrt Real.pi / 2 * erfReal t)
      (Set.Icc 0 1) := by
    apply monotoneOn_of_deriv_nonneg (convex_Icc 0 1)
    · exact fun t _ => (hU t).continuousAt.continuousWithinAt
    · exact fun t _ => (hU t).differentiableAt.differentiableWithinAt
    · intro t ht
      rw [interior_Icc] at ht
      rw [(hU t).deriv]
      have := abs_le.mp (hpt t ht.1.le ht.2.le)
      linarith [this.2]
  have h00 : erfReal 0 = 0 := by
    have := erfReal_neg 0
    rw [neg_zero] at this
    linarith
  have m0 : (0:ℝ) ∈ Set.Icc (0:ℝ) 1 := ⟨le_rfl, zero_le_one⟩
  have ma : a ∈ Set.Icc (0:ℝ) 1 := ⟨h0, h1⟩
  have l := hmL m0 ma h0
  have u := hmU m0 ma h0
  simp only [h00] at l u
  norm_num at l u
  rw [abs_le]
  constructor <;> linarith

/-- The distance of `Phi x` to the value given by the Taylor polynomial, for
`0 ≤ x ≤ 1`. -/
theorem Phi_bound {x : ℝ} (h0 : 0 ≤ x) (h1 : x ≤ 1) :
    |Phi x - (1 / 2 + x / (Real.sqrt 2 * Real.sqrt Real.pi)
        * (1 - x ^ 2 / 6 + x ^ 4 / 40 - x ^ 6 / 336))|
      ≤ x / (Real.sqrt 2 * Real.sqrt Real.pi) * (5 * x ^ 8 / 13824) := by
  have hs2 : 0 < Real.sqrt 2 := by positivity
  have hspi : 0 < Real.sqrt Real.pi := by have := Real.pi_pos; positivity
  have h2 : Real.sqrt 2 ^ 2 = 2 := Real.sq_sqrt (by norm_num)
  have hs2' : 1 ≤ Real.sqrt 2 := by
    rw [Real.one_le_sqrt]; norm_num
  have ha0 : 0 ≤ x / Real.sqrt 2 := by positivity
  have ha1 : x / Real.sqrt 2 ≤ 1 := by
    rw [div_le_one hs2]; linarith
  have ha2 : (x / Real.sqrt 2) ^ 2 = x ^ 2 / 2 := by rw [div_pow, h2]
  have hb := erfReal_bound ha0 ha1
  generalize hE : erfReal (x / Real.sqrt 2) = E at hb
  have eP : x / Real.sqrt 2 - (x / Real.sqrt 2) ^ 3 / 3 + (x / Real.sqrt 2) ^ 5 / 10
      - (x / Real.sqrt 2) ^ 7 / 42
      = x / Real.sqrt 2 * (1 - x ^ 2 / 6 + x ^ 4 / 40 - x ^ 6 / 336) := by
    have e3 : (x / Real.sqrt 2) ^ 3 = x / Real.sqrt 2 * (x / Real.sqrt 2) ^ 2 := by ring
    have e5 : (x / Real.sqrt 2) ^ 5 = x / Real.sqrt 2 * ((x / Real.sqrt 2) ^ 2) ^ 2 := by ring
    have e7 : (x / Real.sqrt 2) ^ 7 = x / Real.sqrt 2 * ((x / Real.sqrt 2) ^ 2) ^ 3 := by ring
    rw [e3, e5, e7, ha2]
    ring
  have e9 : (x / Real.sqrt 2) ^ 9 = x / Real.sqrt 2 * (x ^ 8 / 16) := by
    have : (x / Real.sqrt 2) ^ 9 = x / Real.sqrt 2 * ((x / Real.sqrt 2) ^ 2) ^ 4 := by ring
    rw [this, ha2]
    ring
  rw [eP, e9] at hb
  have hPhi : Phi x - (1 / 2 + x / (Real.sqrt 2 * Real.sqrt Real.pi)
        * (1 - x ^ 2 / 6 + x ^ 4 / 40 - x ^ 6 / 336))
      = 1 / Real.sqrt Real.pi
        * (Real.sqrt Real.pi / 2 * E
          - x / Real.sqrt 2 * (1 - x ^ 2 / 6 + x ^ 4 / 40 - x ^ 6 / 336)) := by
    unfold Phi
    rw [hE]
    field_simp
    ring
  rw [hPhi, abs_mul, abs_of_pos (by positivity : 0 < 1 / Real.sqrt Real.pi)]
  calc 1 / Real.sqrt Real.pi
        * |Real.sqrt Real.pi / 2 * E
            - x / Real.sqrt 2 * (1 - x ^ 2 / 6 + x ^ 4 / 40 - x ^ 6 / 336)|
      ≤ 1 / Real.sqrt Real.pi * (5 / 864 * (x / Real.sqrt 2 * (x ^ 8 / 16))) :=
        mul_le_mul_of_nonneg_left hb (by positivity)
    _ = x / (Real.sqrt 2 * Real.sqrt Real.pi) * (5 * x ^ 8 / 13824) := by
        field_simp
        ring

/-- Rational enclosure of `Phi x` for `0 ≤ x ≤ 1`, from the Taylor polynomial
and `3.141592 < π < 3.141593`. -/
theorem Phi_enclosure {x lo hi : ℝ} (h0 : 0 ≤ x) (h1 : x ≤ 1)
    (hpos : 0 ≤ 1 - x ^ 2 / 6 + x ^ 4 / 40 - x ^ 6 / 336 - 5 * x ^ 8 / 13824)
    (hlo : lo ≤ 1 / 2 + x / 2.506629
      * (1 - x ^ 2 / 6 + x ^ 4 / 40 - x ^ 6 / 336 - 5 * x ^ 8 / 13824))
    (hhi : 1 / 2 + x / 2.506628
      * (1 - x ^ 2 / 6 + x ^ 4 / 40 - x ^ 6 / 336 + 5 * x ^ 8 / 13824) ≤ hi) :
    lo ≤ Phi x ∧ Phi x ≤ hi := by
  have hsb : 2.506628 < Real.sqrt 2 * Real.sqrt Real.pi
      ∧ Real.sqrt 2 * Real.sqrt Real.pi < 2.506629 := by
    rw [← Real.sqrt_mul (by norm_num : (0:ℝ) ≤ 2)]
    have hplo := Real.pi_gt_d6
    have hphi := Real.pi_lt_d6
    constructor
    · rw [Real.lt_sqrt (by norm_num)]
      norm_num
      linarith
    · rw [Real.sqrt_lt' (by norm_num)]
      norm_num
      linarith
  obtain ⟨hsl, hsu⟩ := hsb
  have hb := abs_le.mp (Phi_bound h0 h1)
  generalize Real.sqrt 2 * Real.sqrt Real.pi = s at hsl hsu hb
  have hs0 : 0 < s := by linarith
  have hc1 : x / 2.506629 ≤ x / s := div_le_div_of_nonneg_left h0 hs0 hsu.le
  have hc2 : x / s ≤ x / 2.506628 := div_le_div_of_nonneg_left h0 (by norm_num) hsl.le
  have hε : 0 ≤ 5 * x ^ 8 / 13824 := by positivity
  constructor
  · have := mul_le_mul_of_nonneg_right hc1 hpos
    nlinarith [hb.1]
  · have hpos2 : 0 ≤ 1 - x ^ 2 / 6 + x ^ 4 / 40 - x ^ 6 / 336 + 5 * x ^ 8 / 13824 := by
      linarith
    have := mul_le_mul_of_nonneg_right hc2 hpos2
    nlinarith [hb.2]

/-- Enclosures at the reference scenario `S = K = 100`, `sigma = 0.2`, `T = 1`,
`r = 0.05`, where `d1 = 0.35` and `d2 = 0.15`. -/
theorem reference_enclosure :
    10.4504 ≤ callReal 100 100 0.2 1 0.05 ∧ callReal 100 100 0.2 1 0.05 ≤ 10.4508
    ∧ 0.951228 ≤ Real.exp (-0.05 * 1) ∧ Real.exp (-0.05 * 1) ≤ 0.95123 := by
  have hd : d1Real 100 100 0.2 1 0.05 = 0.35 := by
    unfold d1Real
    rw [div_self (by norm_num : (100:ℝ) ≠ 0), Real.log_one, Real.sqrt_one]
    norm_num
  have hc : callReal 100 100 0.2 1 0.05
      = 100 * Phi 0.35 - 100 * Real.exp (-0.05 * 1) * Phi 0.15 := by
    unfold callReal
    rw [hd, Real.sqrt_one]
    norm_num
  obtain ⟨a1, a2⟩ : 0.63683 ≤ Phi 0.35 ∧ Phi 0.35 ≤ 0.636831 :=
    Phi_enclosure (by norm_num) (by norm_num) (by norm_num) (by norm_num) (by norm_num)
  obtain ⟨b1, b2⟩ : 0.559617 ≤ Phi 0.15 ∧ Phi 0.15 ≤ 0.559618 :=
    Phi_enclosure (by norm_num) (by norm_num) (by norm_num) (by norm_num) (by norm_num)
  have he := abs_le.mp (exp_neg_bound (u := 0.05) (by norm_num) (by norm_num))
  have e0 : Real.exp (-0.05 * 1) = Real.exp (-0.05) := by norm_num
  have e1 : 0.951228 ≤ Real.exp (-0.05) := by
    have := he.1
    norm_num at this
    linarith
  have e2 : Real.exp (-0.05) ≤ 0.95123 := by
    have := he.2
    norm_num at this
    linarith
  rw [hc, e0]
  have hb0 : (0:ℝ) ≤ Phi 0.15 := by linarith
  have p1 : 0.951228 * 0.559617 ≤ Real.exp (-0.05) * Phi 0.15 :=
    mul_le_mul e1 b1 (by norm_num) (by linarith)
  have p2 : Real.exp (-0.05) * Phi 0.15 ≤ 0.95123 * 0.559618 :=
    mul_le_mul e2 b2 hb0 (by norm_num)
  refine ⟨?_, ?_, e1, e2⟩ <;> nlinarith

/-- The times written by a run with a finite `T` and `numSteps > 0`. -/
theorem times_simulate {numSteps : ℕ} (hN : 0 < numSteps) (S K sigma r : Dbl) (T : ℝ)
    (ty : Char) :
    (simulate numSteps S K sigma (fin T) r ty).map Row.currentTime
      = (List.range (numSteps + 1)).map
          (fun i : ℕ => fin ((i : ℝ) * (T / (numSteps : ℝ)))) := by
  rw [simulate_eq_map, List.map_map]
  apply List.map_congr_left
  intro i _
  exact step_time hN i T

/-! ## The claims -/

/-- Counterexample to claim C2 as stated. With `timeToMaturity = 0` (allowed by
`T ≥ 0`) the 101 times written by `main` are not strictly ascending: the
times of step 0 and of step 1 are both `0`. -/
theorem times_zero_not_ascending :
    ¬ List.Pairwise Dbl.lt
        ((main (fin 100) (fin 100) (fin 0.2) (fin 0) (fin 0.05) 'c').map Row.currentTime) := by
  unfold main
  rw [times_simulate (by decide), List.pairwise_map]
  intro h
  have h01 := List.pairwise_iff_getElem.mp h 0 1 (by rw [List.length_range]; decide)
    (by rw [List.length_range]; decide) (by decide)
  rw [List.getElem_range, List.getElem_range] at h01
  have h01' : ((0:ℕ):ℝ) * (0 / ((numSteps:ℕ):ℝ)) < ((1:ℕ):ℝ) * (0 / ((numSteps:ℕ):ℝ)) := h01
  rw [zero_div, mul_zero, mul_zero] at h01'
  exact lt_irrefl _ h01'

/-- Claim C2, amended. For a step count `numSteps > 0` and a finite
`T ≥ 0` the loop writes exactly `numSteps + 1` rows, the first at time `0`, the
last at the computed time `numSteps * (T / numSteps)`, with non-decreasing
times; the times are strictly ascending whenever the computed
`deltaTime = T / numSteps` is greater than zero. -/
theorem times_ascending (numSteps : ℕ) (hN : 0 < numSteps) (S K sigma r : Dbl) (T : ℝ)
    (ty : Char) (hT : 0 ≤ T) :
    (simulate numSteps S K sigma (fin T) r ty).length = numSteps + 1
    ∧ ((simulate numSteps S K sigma (fin T) r ty).map Row.currentTime).head? = some (fin 0)
    ∧ ((simulate numSteps S K sigma (fin T) r ty).map Row.currentTime).getLast?
        = some (Dbl.ofNat numSteps * (fin T / Dbl.ofNat numSteps))
    ∧ List.Pairwise Dbl.le ((simulate numSteps S K sigma (fin T) r ty).map Row.currentTime)
    ∧ (Dbl.lt (fin 0) (fin T / Dbl.ofNat numSteps) →
        List.Pairwise Dbl.lt ((simulate numSteps S K sigma (fin T) r ty).map Row.currentTime))
    := by
  have hNr : (0:ℝ) < (numSteps : ℝ) := by exact_mod_cast hN
  refine ⟨by rw [simulate_eq_map, List.length_map, List.length_range], ?_, ?_, ?_, ?_⟩
  · rw [times_simulate hN, List.range_succ_eq_map]
    simp
  · rw [step_time hN, times_simulate hN, List.range_succ]
    simp
  · rw [times_simulate hN, List.pairwise_map]
    refine List.Pairwise.imp_of_mem ?_ (List.pairwise_lt_range (numSteps + 1))
    intro a b _ _ hab
    show (a : ℝ) * (T / numSteps) ≤ (b : ℝ) * (T / numSteps)
    have : (a : ℝ) ≤ (b : ℝ) := by exact_mod_cast hab.le
    exact mul_le_mul_of_nonneg_right this (div_nonneg hT hNr.le)
  · intro hdt
    unfold Dbl.ofNat at hdt
    rw [Dbl.fin_div_fin T hNr.ne'] at hdt
    have hdt' : (0:ℝ) < T / (numSteps : ℝ) := hdt
    rw [times_simulate hN, List.pairwise_map]
    refine List.Pairwise.imp_of_mem ?_ (List.pairwise_lt_range (numSteps + 1))
    intro a b _ _ hab
    show (a : ℝ) * (T / numSteps) < (b : ℝ) * (T / numSteps)
    have : (a : ℝ) < (b : ℝ) := by exact_mod_cast hab
    exact mul_lt_mul_of_pos_right this hdt'

/-- The amended claim C2 at `numSteps = 100`, `T = 1`, where the computed
`deltaTime` is greater than zero. -/
theorem times_ascending_witness :
    (simulate 100 (fin 100) (fin 100) (fin 0.2) (fin 1) (fin 0.05) 'c').length = 100 + 1
    ∧ ((simulate 100 (fin 100) (fin 100) (fin 0.2) (fin 1) (fin 0.05) 'c').map
        Row.currentTime).head? = some (fin 0)
    ∧ ((simulate 100 (fin 100) (fin 100) (fin 0.2) (fin 1) (fin 0.05) 'c').map
        Row.currentTime).getLast? = some (Dbl.ofNat 100 * (fin 1 / Dbl.ofNat 100))
    ∧ List.Pairwise Dbl.lt
        ((simulate 100 (fin 100) (fin 100) (fin 0.2) (fin 1) (fin 0.05) 'c').map
          Row.currentTime) :=
  have h := times_ascending 100 (by decide) (fin 100) (fin 100) (fin 0.2) (fin 0.05) 1 'c'
    (by norm_num)
  have hdt : Dbl.lt (fin 0) (fin 1 / Dbl.ofNat 100) := by
    unfold Dbl.ofNat
    rw [Dbl.fin_div_fin 1 (by norm_num)]
    show (0:ℝ) < 1 / ((100:ℕ):ℝ)
    norm_num
  ⟨h.1, h.2.1, h.2.2.1, h.2.2.2.2 hdt⟩

/-- Claim C3. For `S = 100`, `K = 100`, `sigma = 0.2`, `T = 1.0`, `r = 0.05` and
option type `'c'` the pricer returns a finite value within `1e-3` of
`10.4506`. -/
theorem call_reference_value :
    ∃ v : ℝ,
      calculateBlackScholesOption (fin 100) (fin 100) (fin 0.2) (fin 1.0) (fin 0.05) 'c' = fin v
      ∧ |v - 10.4506| ≤ 0.001 := by
  refine ⟨callReal 100 100 0.2 1 0.05, ?_, ?_⟩
  · have h := (price_fin (S := 100) (K := 100) (T := 1) 0.05 (by norm_num) (by norm_num)
      (by norm_num : (0:ℝ) < 0.2) (by norm_num)).2.1
    norm_num at h ⊢
    exact h
  · obtain ⟨c1, c2, _, _⟩ := reference_enclosure
    rw [abs_le]
    constructor <;> linarith

/-- Claim C4. For `S = 100`, `K = 100`, `sigma = 0.2`, `T = 1.0`, `r = 0.05` and
option type `'p'` the pricer returns a finite value within `1e-3` of
`5.5735`. -/
theorem put_reference_value :
    ∃ v : ℝ,
      calculateBlackScholesOption (fin 100) (fin 100) (fin 0.2) (fin 1.0) (fin 0.05) 'p' = fin v
      ∧ |v - 5.5735| ≤ 0.001 := by
  refine ⟨callReal 100 100 0.2 1 0.05 - 100 + 100 * Real.exp (-0.05 * 1), ?_, ?_⟩
  · have h := (price_fin (S := 100) (K := 100) (T := 1) 0.05 (by norm_num) (by norm_num)
      (by norm_num : (0:ℝ) < 0.2) (by norm_num)).2.2
    norm_num at h ⊢
    exact h
  · obtain ⟨c1, c2, e1, e2⟩ := reference_enclosure
    rw [abs_le]
    constructor <;> linarith

/-- Counterexample to claim C7 as stated. For `S = 110`, `K = 100`,
`sigma = 0.2`, `T = 1`, `r = 0.05` and a call, the price of the first row
(step 0, time to maturity 0) is the finite value `10`: `d1` and `d2` are
`+Inf`, the distribution function is `1` there, and the price is `S - K`. -/
theorem first_row_price_finite :
    ∃ row : Row,
      (main (fin 110) (fin 100) (fin 0.2) (fin 1) (fin 0.05) 'c')[0]? = some row
      ∧ row.optionPrice = fin 10
      ∧ ¬ (row.optionPrice = nan ∨ row.optionPrice = pinf ∨ row.optionPrice = ninf) := by
  have hp : calculateBlackScholesOption (fin 110) (fin 100) (fin 0.2) (fin 0) (fin 0.05) 'c'
      = fin 10 := by
    rw [((price_at_zero 0.2 0.05 (by norm_num) (by norm_num)).2.1 (by norm_num)).1]
    norm_num
  refine ⟨_, main_first_row _ _ _ _ _ _, hp, ?_⟩
  show ¬ (calculateBlackScholesOption (fin 110) (fin 100) (fin 0.2) (fin 0) (fin 0.05) 'c' = nan
    ∨ calculateBlackScholesOption (fin 110) (fin 100) (fin 0.2) (fin 0) (fin 0.05) 'c' = pinf
    ∨ calculateBlackScholesOption (fin 110) (fin 100) (fin 0.2) (fin 0) (fin 0.05) 'c' = ninf)
  rw [hp]
  rintro (h | h | h) <;> exact Dbl.noConfusion h

/-- Claim C7, amended. For finite `S, K > 0` and any finite `sigma`, `T`, `r`,
the first row is computed at time to maturity `0`; the `d1` computed there is
not finite, the division by zero being propagated without a special case; and
when `S = K` the price of that row is `NaN`, for `'c'` and for `'p'`. -/
theorem first_row_price (S K sigma T r : ℝ) (hS : 0 < S) (hK : 0 < K) :
    (∀ ty : Char, (main (fin S) (fin K) (fin sigma) (fin T) (fin r) ty)[0]? = some
        { currentTime := fin 0
          optionPrice :=
            calculateBlackScholesOption (fin S) (fin K) (fin sigma) (fin 0) (fin r) ty
          delta :=
            calculateDeltaNumerically (fin S) (fin K) (fin sigma) (fin 0) (fin r) ty
              (fin S * fin 0.01) })
    ∧ (∀ v : ℝ, d1 (fin S) (fin K) (fin sigma) (fin 0) (fin r) ≠ fin v)
    ∧ (S = K → ∀ ty : Char, ty = 'c' ∨ ty = 'p' →
        ((main (fin S) (fin K) (fin sigma) (fin T) (fin r) ty)[0]?).map Row.optionPrice
          = some nan) := by
  refine ⟨fun ty => main_first_row _ _ _ _ _ ty, ?_, ?_⟩
  · intro v
    unfold d1
    rw [zero_denominator]
    exact Dbl.div_zero_ne_fin _ v
  · intro h ty hty
    rw [main_first_row]
    exact congrArg some ((price_at_zero sigma r hS hK).1 h ty hty)

/-- The amended claim C7 at `S = K = 100`: the first price is `NaN`, for a
call and for a put. -/
theorem first_row_price_witness :
    ((main (fin 100) (fin 100) (fin 0.2) (fin 1) (fin 0.05) 'c')[0]?).map Row.optionPrice
        = some nan
    ∧ ((main (fin 100) (fin 100) (fin 0.2) (fin 1) (fin 0.05) 'p')[0]?).map Row.optionPrice
        = some nan :=
  ⟨(first_row_price 100 100 0.2 1 0.05 (by norm_num) (by norm_num)).2.2 rfl 'c' (Or.inl rfl),
   (first_row_price 100 100 0.2 1 0.05 (by norm_num) (by norm_num)).2.2 rfl 'p' (Or.inr rfl)⟩

/-- Claim C8. For every step `i ≤ numSteps` the row written by the loop is
`(i * deltaTime, price(S, K, sigma, i * deltaTime, r, type),
(price(S + dS, ...) - price(S, ...)) / dS)` with `deltaTime = T / numSteps` and
`dS = S * 0.01`; and with `numSteps = 100`, `T = 1.0` the row of step 50 has
time `0.5`. -/
theorem loop_sample :
    (∀ (numSteps i : ℕ), i ≤ numSteps → ∀ (S K sigma T r : Dbl) (ty : Char),
      (simulate numSteps S K sigma T r ty)[i]? = some
        { currentTime := Dbl.ofNat i * (T / Dbl.ofNat numSteps)
          optionPrice :=
            calculateBlackScholesOption S K sigma (Dbl.ofNat i * (T / Dbl.ofNat numSteps)) r ty
          delta :=
            (calculateBlackScholesOption (S + S * fin 0.01) K sigma
                (Dbl.ofNat i * (T / Dbl.ofNat numSteps)) r ty
              - calculateBlackScholesOption S K sigma
                (Dbl.ofNat i * (T / Dbl.ofNat numSteps)) r ty) / (S * fin 0.01) })
    ∧ (∀ (S K sigma r : Dbl) (ty : Char),
        ((main S K sigma (fin 1.0) r ty)[50]?).map Row.currentTime = some (fin 0.5)) := by
  refine ⟨fun numSteps i hi S K sigma T r ty => ?_, fun S K sigma r ty => ?_⟩
  · rw [simulate_getElem? numSteps i hi]
    rfl
  · unfold main
    rw [simulate_getElem? numSteps 50 (by decide)]
    show some (Dbl.ofNat 50 * (fin 1.0 / Dbl.ofNat numSteps)) = _
    rw [step_time (by decide)]
    unfold numSteps
    norm_num

/-- Claim C8 at step 50 of 100 for `S = K = 100`, `sigma = 0.2`, `T = 1`,
`r = 0.05`, call. -/
theorem loop_sample_witness :
    (simulate 100 (fin 100) (fin 100) (fin 0.2) (fin 1) (fin 0.05) 'c')[50]? = some
      { currentTime := Dbl.ofNat 50 * (fin 1 / Dbl.ofNat 100)
        optionPrice :=
          calculateBlackScholesOption (fin 100) (fin 100) (fin 0.2)
            (Dbl.ofNat 50 * (fin 1 / Dbl.ofNat 100)) (fin 0.05) 'c'
        delta :=
          (calculateBlackScholesOption (fin 100 + fin 100 * fin 0.01) (fin 100) (fin 0.2)
              (Dbl.ofNat 50 * (fin 1 / Dbl.ofNat 100)) (fin 0.05) 'c'
            - calculateBlackScholesOption (fin 100) (fin 100) (fin 0.2)
              (Dbl.ofNat 50 * (fin 1 / Dbl.ofNat 100)) (fin 0.05) 'c') / (fin 100 * fin 0.01) } :=
  loop_sample.1 100 50 (by decide) (fin 100) (fin 100) (fin 0.2) (fin 1) (fin 0.05) 'c'

/-- Counterexample to claim C10 as stated. With the spot price `S = 0` and
the invalid option type `'x'` the step `dS = S * 0.01` is zero, and the delta of
the first row is `(0 - 0) / 0 = NaN`, not `0`. -/
theorem invalid_type_zero_spot :
    ∃ row : Row,
      (main (fin 0) (fin 100) (fin 0.2) (fin 1) (fin 0.05) 'x')[0]? = some row
      ∧ row.optionPrice = fin 0
      ∧ row.delta = nan
      ∧ row.delta ≠ fin 0 := by
  have hp : ∀ S K sigma T r : Dbl, calculateBlackScholesOption S K sigma T r 'x' = fin 0 := by
    intro S K sigma T r
    unfold calculateBlackScholesOption
    rw [if_neg (by decide), if_neg (by decide)]
    norm_num
  have hd : calculateDeltaNumerically (fin 0) (fin 100) (fin 0.2) (fin 0) (fin 0.05) 'x'
      (fin 0 * fin 0.01) = nan := by
    unfold calculateDeltaNumerically
    rw [hp, hp]
    show fin (0 + -0) / fin (0 * 0.01) = nan
    exact (if_pos (by norm_num)).trans (if_pos (by norm_num))
  refine ⟨_, main_first_row _ _ _ _ _ _, ?_, hd, ?_⟩
  · exact hp (fin 0) (fin 100) (fin 0.2) (fin 0) (fin 0.05)
  show calculateDeltaNumerically (fin 0) (fin 100) (fin 0.2) (fin 0) (fin 0.05) 'x'
      (fin 0 * fin 0.01) ≠ fin 0
  rw [hd]
  exact fun h => Dbl.noConfusion h

/-- Claim C10, amended. For every option type character other than `'c'` and
`'p'` the pricer returns `0.0` for every `S, K, sigma, T, r`; hence the delta
estimator returns `0` for every `dS` that is neither `0` nor `NaN`, and `NaN`
when `dS` is `0` or `NaN`; so every row of the grid has price `0`, and has delta
`0` when the computed `dS = S * 0.01` is neither `0` nor `NaN`, and delta `NaN`
otherwise. -/
theorem invalid_option_type (ty : Char) (hc : ty ≠ 'c') (hp : ty ≠ 'p') :
    (∀ S K sigma T r : Dbl, calculateBlackScholesOption S K sigma T r ty = fin 0)
    ∧ (∀ S K sigma T r dS : Dbl,
        (dS ≠ nan → dS ≠ fin 0 → calculateDeltaNumerically S K sigma T r ty dS = fin 0)
        ∧ (dS = nan ∨ dS = fin 0 → calculateDeltaNumerically S K sigma T r ty dS = nan))
    ∧ (∀ (numSteps : ℕ) (S K sigma T r : Dbl),
        ∀ row ∈ simulate numSteps S K sigma T r ty,
          row.optionPrice = fin 0
          ∧ (S * fin 0.01 ≠ nan → S * fin 0.01 ≠ fin 0 → row.delta = fin 0)
          ∧ (S * fin 0.01 = nan ∨ S * fin 0.01 = fin 0 → row.delta = nan)) := by
  have hprice : ∀ S K sigma T r : Dbl,
      calculateBlackScholesOption S K sigma T r ty = fin 0 := by
    intro S K sigma T r
    unfold calculateBlackScholesOption
    rw [if_neg hc, if_neg hp]
    norm_num
  have hdelta : ∀ S K sigma T r dS : Dbl,
      (dS ≠ nan → dS ≠ fin 0 → calculateDeltaNumerically S K sigma T r ty dS = fin 0)
      ∧ (dS = nan ∨ dS = fin 0 → calculateDeltaNumerically S K sigma T r ty dS = nan) := by
    intro S K sigma T r dS
    have e : calculateDeltaNumerically S K sigma T r ty dS = fin (0 + -0) / dS := by
      unfold calculateDeltaNumerically
      rw [hprice, hprice]
      rfl
    rw [e]
    constructor
    · intro h1 h2
      cases dS with
      | nan => exact absurd rfl h1
      | pinf => rfl
      | ninf => rfl
      | fin d =>
        have hd : d ≠ 0 := fun h => h2 (congrArg fin h)
        rw [Dbl.fin_div_fin _ hd]
        norm_num
    · rintro (rfl | rfl)
      · rfl
      · exact (if_pos rfl).trans (if_pos (by norm_num))
  refine ⟨hprice, hdelta, ?_⟩
  intro numSteps S K sigma T r row hrow
  rw [simulate_eq_map, List.mem_map] at hrow
  obtain ⟨i, _, rfl⟩ := hrow
  exact ⟨hprice _ _ _ _ _, (hdelta _ _ _ _ _ _).1, (hdelta _ _ _ _ _ _).2⟩

/-- The amended claim C10 at the option type `'x'` and `S = 100`. -/
theorem invalid_option_type_witness :
    calculateBlackScholesOption (fin 100) (fin 100) (fin 0.2) (fin 1) (fin 0.05) 'x' = fin 0
    ∧ calculateDeltaNumerically (fin 100) (fin 100) (fin 0.2) (fin 1) (fin 0.05) 'x' (fin 1)
        = fin 0
    ∧ (∀ row ∈ main (fin 100) (fin 100) (fin 0.2) (fin 1) (fin 0.05) 'x',
        row.optionPrice = fin 0 ∧ row.delta = fin 0) :=
  have h := invalid_option_type 'x' (by decide) (by decide)
  have hn : fin 100 * fin 0.01 ≠ nan := fun e => Dbl.noConfusion e
  have hz : fin 100 * fin 0.01 ≠ fin 0 := by
    show fin (100 * 0.01) ≠ fin 0
    intro e
    have e' : (100:ℝ) * 0.01 = 0 := Dbl.fin.inj e
    norm_num at e'
  ⟨h.1 _ _ _ _ _,
    (h.2.1 _ _ _ _ _ (fin 1)).1 (fun e => Dbl.noConfusion e)
      (fun e => one_ne_zero (Dbl.fin.inj e)),
    fun row hrow => ⟨(h.2.2 numSteps _ _ _ _ _ row hrow).1,
      (h.2.2 numSteps _ _ _ _ _ row hrow).2.1 hn hz⟩⟩

end BlackScholes
